import Mathlib

/-!
Shallow embedding of `src/bootinfo/memory_map.rs`: the boot-stage physical
memory map (`FrameRange`, `MemoryRegion`, `MemoryRegionType`, `MemoryMap`) and
the E820 firmware-descriptor adapter, together with theorems about the
properties the specification states for them.

`u64` values are modelled as `Nat`; the one place where the source performs a
subtraction that can underflow (`end_addr - 1` in `FrameRange::new`) is
modelled as a fallible operation, since under Rust's checked arithmetic that
underflow is a fatal panic. Rust panics (the capacity assertion in
`add_region`, the invalid-type-code panic in the E820 conversion) are
modelled by `Option`, with `none` standing for the fatal failure.
-/

namespace MemMap

/-- Constant `PAGE_SIZE` from the source: 4096 bytes. -/
def PAGE_SIZE : Nat := 4096

/-- Constant `MAX_MEMORY_MAP_SIZE` from the source: 64 entries. -/
def MAX_MEMORY_MAP_SIZE : Nat := 64

/-- Structure `FrameRange`: half-open range of page-frame numbers, `end_frame_number`
exclusive. -/
structure FrameRange where
  start_frame_number : Nat
  end_frame_number : Nat
deriving DecidableEq, Repr

/-- Constructor `FrameRange::new(start_addr, end_addr)`. The source computes
`let last_byte = end_addr - 1;` on `u64`, which underflows when
`end_addr == 0` (a fatal arithmetic error under Rust's checked arithmetic);
that failure is modelled as `none`. Otherwise the result is
`start_frame_number = start_addr / PAGE_SIZE` and
`end_frame_number = last_byte / PAGE_SIZE + 1`. -/
def FrameRange.new (start_addr end_addr : Nat) : Option FrameRange :=
  if end_addr = 0 then
    none
  else
    let last_byte := end_addr - 1
    some ⟨start_addr / PAGE_SIZE, last_byte / PAGE_SIZE + 1⟩

/-- Method `FrameRange::is_empty`. -/
def FrameRange.is_empty (r : FrameRange) : Bool :=
  r.start_frame_number == r.end_frame_number

/-- Method `FrameRange::start_addr`. -/
def FrameRange.start_addr (r : FrameRange) : Nat :=
  r.start_frame_number * PAGE_SIZE

/-- Method `FrameRange::end_addr`. -/
def FrameRange.end_addr (r : FrameRange) : Nat :=
  r.end_frame_number * PAGE_SIZE

/-- Enumeration `MemoryRegionType`: the closed classification enumeration, in source
order. -/
inductive MemoryRegionType where
  | Usable
  | InUse
  | Reserved
  | AcpiReclaimable
  | AcpiNvs
  | BadMemory
  | Kernel
  | KernelStack
  | PageTable
  | Bootloader
  | FrameZero
  | Empty
  | BootInfo
  | Package
deriving DecidableEq, Repr

/-- Structure `MemoryRegion`: a `FrameRange` tagged with a `MemoryRegionType`. -/
structure MemoryRegion where
  range : FrameRange
  region_type : MemoryRegionType
deriving DecidableEq, Repr

/-- Constructor `MemoryRegion::empty()`: the all-zero range tagged `Empty`. -/
def MemoryRegion.empty : MemoryRegion :=
  ⟨⟨0, 0⟩, MemoryRegionType.Empty⟩

/-- The comparator closure passed to `sort_unstable_by` in `MemoryMap::sort`,
transcribed literally: an empty-range region compares `Greater` than anything
(including another empty region), a non-empty region compares `Less` than an
empty one, and two non-empty regions compare lexicographically by
`(start_frame_number, end_frame_number)`. -/
def regionCmp (r1 r2 : MemoryRegion) : Ordering :=
  if r1.range.is_empty then
    Ordering.gt
  else if r2.range.is_empty then
    Ordering.lt
  else
    let ordering := compare r1.range.start_frame_number r2.range.start_frame_number
    if ordering = Ordering.eq then
      compare r1.range.end_frame_number r2.range.end_frame_number
    else
      ordering

/-- The "not after" relation induced by `regionCmp`: `RLE r1 r2` holds when
the comparator does not place `r2` strictly before `r1`. For every pair except
two empty-range regions this coincides with `regionCmp r1 r2 ≠ gt`; for two
empty-range regions the comparator is symmetric (`gt` both ways, the
source order among placeholders being unconstrained), and `RLE` totalises it
to `true`. A sort by `RLE` is therefore one admissible outcome of
`sort_unstable_by` with this comparator. -/
def RLE (r1 r2 : MemoryRegion) : Prop :=
  regionCmp r2 r1 ≠ Ordering.lt

instance : DecidableRel RLE := fun r1 r2 =>
  inferInstanceAs (Decidable (regionCmp r2 r1 ≠ Ordering.lt))

/-- Structure `MemoryMap`: the fixed 64-entry buffer plus occupancy counter. The array
is modelled as a `List`; `MemoryMap.new` and `add_region` keep its length at
`MAX_MEMORY_MAP_SIZE`. -/
structure MemoryMap where
  entries : List MemoryRegion
  next_entry_index : Nat
deriving DecidableEq, Repr

/-- Constructor `MemoryMap::new()`: all slots empty, counter zero. -/
def MemoryMap.new : MemoryMap :=
  ⟨List.replicate MAX_MEMORY_MAP_SIZE MemoryRegion.empty, 0⟩

/-- Method `MemoryMap::sort()`: sort the whole buffer (occupied and placeholder
slots together) with the `regionCmp` comparator, then recompute
`next_entry_index` as the position of the first empty-range entry; as in the
source's `if let Some(..) = position(..)`, the counter is left unchanged when
no entry is empty. -/
def MemoryMap.sort (m : MemoryMap) : MemoryMap :=
  let es := m.entries.insertionSort RLE
  match es.findIdx? (fun r => r.range.is_empty) with
  | some first_zero_index => ⟨es, first_zero_index⟩
  | none => ⟨es, m.next_entry_index⟩

/-- Method `MemoryMap::add_region(region)`: the source asserts
`next_entry_index() < MAX_MEMORY_MAP_SIZE` (a fatal panic when the map is
full, modelled as `none`), then writes `region` into the slot at
`next_entry_index`, increments the counter and re-sorts. -/
def MemoryMap.add_region (m : MemoryMap) (region : MemoryRegion) : Option MemoryMap :=
  if m.next_entry_index < MAX_MEMORY_MAP_SIZE then
    some (MemoryMap.sort ⟨m.entries.set m.next_entry_index region, m.next_entry_index + 1⟩)
  else
    none

/-- The `Deref` impl: the occupied prefix `entries[0..next_entry_index]`,
the only read view the map exposes. -/
def MemoryMap.toList (m : MemoryMap) : List MemoryRegion :=
  m.entries.take m.next_entry_index

/-- A sequence of `add_region` calls, stopping at the first fatal failure. -/
def MemoryMap.addRegions : MemoryMap → List MemoryRegion → Option MemoryMap
  | m, [] => some m
  | m, r :: rs =>
    match m.add_region r with
    | some m1 => m1.addRegions rs
    | none => none

/-- A write through the `DerefMut` view: the mutable slice
`&mut entries[0..next_entry_index]` returned by `deref_mut`, with `region`
assigned to its index `i`. Indexing the slice out of bounds is a fatal
error, modelled as `none`. -/
def MemoryMap.derefMutWrite (m : MemoryMap) (i : Nat) (region : MemoryRegion) :
    Option MemoryMap :=
  if i < m.next_entry_index then
    some ⟨m.entries.set i region, m.next_entry_index⟩
  else
    none

/-- Structure `E820MemoryRegion`: the firmware-native descriptor. -/
structure E820MemoryRegion where
  start_addr : Nat
  len : Nat
  region_type : Nat
  acpi_extended_attributes : Nat
deriving DecidableEq, Repr

/-- The `From<E820MemoryRegion> for MemoryRegion` impl: type codes 1–5 map to
`Usable`, `Reserved`, `AcpiReclaimable`, `AcpiNvs`, `BadMemory`; any other
code is a fatal panic (`none`). The range is built by
`FrameRange::new(start_addr, start_addr + len)`, which itself fails fatally
when `start_addr + len == 0`. -/
def MemoryRegion.fromE820 (region : E820MemoryRegion) : Option MemoryRegion := do
  let region_type ← match region.region_type with
    | 1 => some MemoryRegionType.Usable
    | 2 => some MemoryRegionType.Reserved
    | 3 => some MemoryRegionType.AcpiReclaimable
    | 4 => some MemoryRegionType.AcpiNvs
    | 5 => some MemoryRegionType.BadMemory
    | _ => none
  let range ← FrameRange.new region.start_addr (region.start_addr + region.len)
  pure ⟨range, region_type⟩

/-- The ascending order on regions the specification states for the occupied
prefix: lexicographic by `(start_frame_number, end_frame_number)`. -/
def lexLE (r1 r2 : MemoryRegion) : Prop :=
  r1.range.start_frame_number < r2.range.start_frame_number ∨
    (r1.range.start_frame_number = r2.range.start_frame_number ∧
      r1.range.end_frame_number ≤ r2.range.end_frame_number)

/-- The well-formedness the map maintains: the buffer splits into a prefix `A`
of non-empty regions and a suffix `B` of empty placeholders, the whole buffer
is sorted by the comparator order, the buffer has the fixed capacity length,
and the counter equals the occupied length. -/
def MapWF (m : MemoryMap) : Prop :=
  ∃ A B, m.entries = A ++ B ∧ m.entries.length = MAX_MEMORY_MAP_SIZE ∧
    (∀ r ∈ A, r.range.is_empty = false) ∧ (∀ r ∈ B, r.range.is_empty = true) ∧
    m.entries.Sorted RLE ∧ m.next_entry_index = A.length

theorem RLE_of_empty_right (r1 r2 : MemoryRegion) (h : r2.range.is_empty = true) :
    RLE r1 r2 := by
  unfold RLE regionCmp
  simp [h]

theorem RLE_iff (r1 r2 : MemoryRegion) :
    RLE r1 r2 ↔
      (r2.range.is_empty = true ∨ (r1.range.is_empty = false ∧ lexLE r1 r2)) := by
  unfold RLE regionCmp lexLE
  cases h2 : r2.range.is_empty with
  | true => simp [h2]
  | false =>
    cases h1 : r1.range.is_empty with
    | true => simp [h1, h2]
    | false =>
      simp only [h1, h2, Bool.false_eq_true, if_false]
      rcases Nat.lt_trichotomy r1.range.start_frame_number r2.range.start_frame_number
        with h | h | h
      · have hc : compare r2.range.start_frame_number r1.range.start_frame_number =
            Ordering.gt := Nat.compare_eq_gt.mpr h
        simp [hc]
        omega
      · have hc : compare r2.range.start_frame_number r1.range.start_frame_number =
            Ordering.eq := Nat.compare_eq_eq.mpr h.symm
        simp [hc, Nat.compare_eq_lt]
        omega
      · have hc : compare r2.range.start_frame_number r1.range.start_frame_number =
            Ordering.lt := Nat.compare_eq_lt.mpr h
        have hne : compare r2.range.start_frame_number r1.range.start_frame_number ≠
            Ordering.eq := by simp [hc]
        simp [hc, hne]
        omega

instance : IsTotal MemoryRegion RLE where
  total r1 r2 := by
    rw [RLE_iff, RLE_iff]
    cases h2 : r2.range.is_empty with
    | true => exact Or.inl (Or.inl rfl)
    | false =>
      cases h1 : r1.range.is_empty with
      | true => exact Or.inr (Or.inl rfl)
      | false =>
        unfold lexLE
        rcases Nat.lt_trichotomy r1.range.start_frame_number r2.range.start_frame_number
          with h | h | h
        · exact Or.inl (Or.inr ⟨rfl, Or.inl h⟩)
        · rcases Nat.le_total r1.range.end_frame_number r2.range.end_frame_number with
            he | he
          · exact Or.inl (Or.inr ⟨rfl, Or.inr ⟨h, he⟩⟩)
          · exact Or.inr (Or.inr ⟨rfl, Or.inr ⟨h.symm, he⟩⟩)
        · exact Or.inr (Or.inr ⟨rfl, Or.inl h⟩)

instance : IsTrans MemoryRegion RLE where
  trans r1 r2 r3 h12 h23 := by
    rw [RLE_iff] at h12 h23 ⊢
    rcases h23 with h3 | ⟨h2, hl23⟩
    · exact Or.inl h3
    · rcases h12 with h2' | ⟨h1, hl12⟩
      · rw [h2'] at h2
        cases h2
      · refine Or.inr ⟨h1, ?_⟩
        unfold lexLE at hl12 hl23 ⊢
        omega

/-- C8: a map constructed by `MemoryMap::new` has all 64 slots set to the
empty region and `next_entry_index == 0`, so iterating it with zero
insertions yields an empty sequence of length 0. -/
theorem new_map_is_empty :
    MemoryMap.new.entries = List.replicate MAX_MEMORY_MAP_SIZE MemoryRegion.empty ∧
    MemoryMap.new.entries.length = 64 ∧
    MemoryMap.new.next_entry_index = 0 ∧
    MemoryMap.new.toList = [] ∧
    MemoryMap.new.toList.length = 0 :=
  ⟨rfl, rfl, rfl, rfl, rfl⟩

/-- C2: for `end_addr ≥ 1`, `FrameRange::new(start, end)` yields
`start_addr() = floor(start / 4096) * 4096` and
`end_addr() = ceil(end / 4096) * 4096` (ceiling division written
`(end + 4095) / 4096`; the claim's extra proviso `end > start` is not needed
for the latter). In particular `new(8202, 20480)` has
`start_frame_number = 2`, `end_frame_number = 5`, `start_addr() = 8192` and
`end_addr() = 20480`. -/
theorem frameRange_new_addr (s e : Nat) (h1 : 1 ≤ e) :
    (FrameRange.new s e).map FrameRange.start_addr = some (s / 4096 * 4096) ∧
    (FrameRange.new s e).map FrameRange.end_addr = some ((e + 4095) / 4096 * 4096) ∧
    FrameRange.new 8202 20480 = some ⟨2, 5⟩ ∧
    (FrameRange.new 8202 20480).map FrameRange.start_addr = some 8192 ∧
    (FrameRange.new 8202 20480).map FrameRange.end_addr = some 20480 := by
  have he : ¬ e = 0 := by omega
  refine ⟨?_, ?_, by decide, by decide, by decide⟩
  · simp [FrameRange.new, he, FrameRange.start_addr, PAGE_SIZE]
  · simp only [FrameRange.new, he, if_false, Option.map_some']
    have hdiv : (e - 1) / 4096 + 1 = (e + 4095) / 4096 := by
      have : e - 1 + 4096 = e + 4095 := by omega
      rw [← this, Nat.add_div_right]
      omega
    simp [FrameRange.end_addr, PAGE_SIZE, hdiv]

/-- Witness for C2 at the spec's own example input. -/
theorem frameRange_new_addr_witness :
    (FrameRange.new 8202 20480).map FrameRange.start_addr = some (8202 / 4096 * 4096) ∧
    (FrameRange.new 8202 20480).map FrameRange.end_addr =
      some ((20480 + 4095) / 4096 * 4096) ∧
    FrameRange.new 8202 20480 = some ⟨2, 5⟩ ∧
    (FrameRange.new 8202 20480).map FrameRange.start_addr = some 8192 ∧
    (FrameRange.new 8202 20480).map FrameRange.end_addr = some 20480 :=
  frameRange_new_addr 8202 20480 (by decide)

/-- C6: `FrameRange` construction has precondition `end_addr ≥ 1`: for every
`end_addr ≥ 1` the last-byte subtraction `end_addr - 1` is exact (it does not
underflow, witnessed by `e - 1 + 1 = e`) and construction succeeds with the
source's frame numbers, while `end_addr == 0` is rejected as a fatal failure
(the underflowing subtraction is the source's `u64` arithmetic error,
modelled as `none`) rather than performed. -/
theorem frameRange_new_underflow_guard (s e : Nat) (h : 1 ≤ e) :
    FrameRange.new s e = some ⟨s / PAGE_SIZE, (e - 1) / PAGE_SIZE + 1⟩ ∧
    e - 1 + 1 = e ∧
    FrameRange.new s 0 = none := by
  have he : ¬ e = 0 := by omega
  refine ⟨by simp [FrameRange.new, he], by omega, by simp [FrameRange.new]⟩

/-- Witness for C6 at `start_addr = 0`, `end_addr = 1`. -/
theorem frameRange_new_underflow_guard_witness :
    FrameRange.new 0 1 = some ⟨0 / PAGE_SIZE, (1 - 1) / PAGE_SIZE + 1⟩ ∧
    1 - 1 + 1 = 1 ∧
    FrameRange.new 0 0 = none :=
  frameRange_new_underflow_guard 0 1 (by decide)

/-- C9: the E820 adapter conversion is independent of the
`acpi_extended_attributes` field: two descriptors that agree on `start_addr`,
`len` and `region_type` convert to the same result. -/
theorem fromE820_ignores_extended_attributes (s l t a a' : Nat) :
    MemoryRegion.fromE820 ⟨s, l, t, a⟩ = MemoryRegion.fromE820 ⟨s, l, t, a'⟩ :=
  rfl

/-- C3: on a map already holding 64 regions (`next_entry_index` equal to the
capacity), `add_region` is the fatal capacity assertion failure (`none`): no
new map is produced, so nothing is truncated, dropped into a slot, or
overwritten. -/
theorem add_region_at_capacity (m : MemoryMap) (r : MemoryRegion)
    (h : m.next_entry_index = MAX_MEMORY_MAP_SIZE) :
    m.add_region r = none := by
  simp [MemoryMap.add_region, h]

/-- Witness for C3 on a concrete map holding 64 one-frame regions. -/
theorem add_region_at_capacity_witness :
    MemoryMap.add_region
      ⟨List.replicate 64 ⟨⟨0, 1⟩, MemoryRegionType.Usable⟩, 64⟩
      ⟨⟨1, 2⟩, MemoryRegionType.Reserved⟩ = none :=
  add_region_at_capacity _ _ rfl

/-- C7: inserting, in order, `{0x2000,0x3000,Usable}`, `{0x0,0x1000,Reserved}`
and `{0x1000,0x2000,Kernel}` into a fresh map yields exactly
`Reserved[0x0,0x1000)`, `Kernel[0x1000,0x2000)`, `Usable[0x2000,0x3000)` in
that order; the frame ranges `⟨2,3⟩`, `⟨0,1⟩`, `⟨1,2⟩` are the ones
`FrameRange::new` builds from those byte addresses, and their
`start_addr`/`end_addr` reproduce them. -/
theorem scenario_three_insertions :
    (MemoryMap.addRegions MemoryMap.new
      [⟨⟨2, 3⟩, MemoryRegionType.Usable⟩, ⟨⟨0, 1⟩, MemoryRegionType.Reserved⟩,
        ⟨⟨1, 2⟩, MemoryRegionType.Kernel⟩]).map MemoryMap.toList =
      some [⟨⟨0, 1⟩, MemoryRegionType.Reserved⟩, ⟨⟨1, 2⟩, MemoryRegionType.Kernel⟩,
        ⟨⟨2, 3⟩, MemoryRegionType.Usable⟩] ∧
    FrameRange.new 0x2000 0x3000 = some ⟨2, 3⟩ ∧
    FrameRange.new 0x0 0x1000 = some ⟨0, 1⟩ ∧
    FrameRange.new 0x1000 0x2000 = some ⟨1, 2⟩ ∧
    FrameRange.start_addr ⟨0, 1⟩ = 0x0 ∧ FrameRange.end_addr ⟨0, 1⟩ = 0x1000 ∧
    FrameRange.start_addr ⟨1, 2⟩ = 0x1000 ∧ FrameRange.end_addr ⟨1, 2⟩ = 0x2000 ∧
    FrameRange.start_addr ⟨2, 3⟩ = 0x2000 ∧ FrameRange.end_addr ⟨2, 3⟩ = 0x3000 := by
  decide

theorem mem_take_nonempty {es : List MemoryRegion} {i : Nat}
    (hf : es.findIdx? (fun r => r.range.is_empty) = some i) :
    ∀ x ∈ es.take i, x.range.is_empty = false := by
  obtain ⟨hlen, hp, hmin⟩ := List.findIdx?_eq_some_iff_getElem.mp hf
  intro x hx
  obtain ⟨j, hj, hx⟩ := List.mem_iff_getElem.mp hx
  have hji : j < i := by
    have hj' := hj
    simp only [List.length_take] at hj'
    omega
  have hje : j < es.length := by omega
  have hget : (es.take i)[j] = es[j] := List.getElem_take es
  rw [hget] at hx
  have hmin' := hmin j hji
  rw [hx] at hmin'
  simpa using hmin'

theorem pairwise_lexLE_of_nonempty {l : List MemoryRegion}
    (hp : l.Pairwise RLE) (hne : ∀ x ∈ l, x.range.is_empty = false) :
    l.Pairwise lexLE := by
  refine List.Pairwise.imp_of_mem ?_ hp
  intro a b ha hb hab
  rcases (RLE_iff a b).mp hab with h | ⟨_, h⟩
  · rw [hne b hb] at h
    cases h
  · exact h

theorem sort_toList_invariant (m : MemoryMap) :
    (m.sort).toList.Pairwise lexLE ∧
      ∀ x ∈ (m.sort).toList, x.range.is_empty = false := by
  have hsorted : (m.entries.insertionSort RLE).Pairwise RLE :=
    List.sorted_insertionSort RLE m.entries
  simp only [MemoryMap.sort]
  cases hf : (m.entries.insertionSort RLE).findIdx? (fun r => r.range.is_empty) with
  | some i =>
    simp only [MemoryMap.toList]
    have hne := mem_take_nonempty hf
    exact ⟨pairwise_lexLE_of_nonempty
      (List.Pairwise.sublist (List.take_sublist _ _) hsorted) hne, hne⟩
  | none =>
    simp only [MemoryMap.toList]
    have hall : ∀ x ∈ m.entries.insertionSort RLE, x.range.is_empty = false := by
      intro x hx
      simpa using List.findIdx?_eq_none_iff.mp hf x hx
    have hne : ∀ x ∈ (m.entries.insertionSort RLE).take m.next_entry_index,
        x.range.is_empty = false :=
      fun x hx => hall x (List.mem_of_mem_take hx)
    exact ⟨pairwise_lexLE_of_nonempty
      (List.Pairwise.sublist (List.take_sublist _ _) hsorted) hne, hne⟩

theorem add_region_invariant (m : MemoryMap) (r : MemoryRegion) (m' : MemoryMap)
    (h : m.add_region r = some m') :
    m'.toList.Pairwise lexLE ∧ ∀ x ∈ m'.toList, x.range.is_empty = false := by
  simp only [MemoryMap.add_region] at h
  split at h
  · exact (Option.some.inj h) ▸ sort_toList_invariant _
  · exact absurd h (by simp)

theorem addRegions_result (m0 : MemoryMap) (rs : List MemoryRegion) (m' : MemoryMap)
    (h : m0.addRegions rs = some m') :
    m' = m0 ∨ ∃ m r, MemoryMap.add_region m r = some m' := by
  induction rs generalizing m0 with
  | nil =>
    simp only [MemoryMap.addRegions] at h
    exact Or.inl (Option.some.inj h).symm
  | cons r rs ih =>
    simp only [MemoryMap.addRegions] at h
    cases hm : m0.add_region r with
    | none =>
      rw [hm] at h
      cases h
    | some m1 =>
      rw [hm] at h
      rcases ih m1 h with rfl | hex
      · exact Or.inr ⟨m0, r, hm⟩
      · exact Or.inr hex

/-- C1: for every sequence of `add_region` calls within the 64-entry
capacity (all calls succeed), the resulting occupied prefix is sorted
ascending by `(start_frame_number, end_frame_number)` and contains no
empty-range entry. Every intermediate state of such a sequence is itself the
result of a shorter sequence, so this covers the state after each call. -/
theorem add_region_sequence_invariant (rs : List MemoryRegion) (m' : MemoryMap)
    (h : MemoryMap.new.addRegions rs = some m') :
    m'.toList.Pairwise lexLE ∧
      m'.toList.all (fun x => !x.range.is_empty) = true := by
  have core : m'.toList.Pairwise lexLE ∧ ∀ x ∈ m'.toList, x.range.is_empty = false := by
    rcases addRegions_result MemoryMap.new rs m' h with rfl | ⟨m, r, hm⟩
    · constructor
      · simp [MemoryMap.toList, MemoryMap.new]
      · simp [MemoryMap.toList, MemoryMap.new]
    · exact add_region_invariant m r m' hm
  refine ⟨core.1, ?_⟩
  rw [List.all_eq_true]
  intro x hx
  simpa using core.2 x hx

/-- Witness for C1 after a one-call sequence. -/
theorem add_region_sequence_invariant_witness :
    (MemoryMap.toList
        ⟨⟨⟨2, 3⟩, MemoryRegionType.Usable⟩ :: List.replicate 63 MemoryRegion.empty, 1⟩).Pairwise
      lexLE ∧
    (MemoryMap.toList
        ⟨⟨⟨2, 3⟩, MemoryRegionType.Usable⟩ :: List.replicate 63 MemoryRegion.empty, 1⟩).all
      (fun x => !x.range.is_empty) = true :=
  add_region_sequence_invariant [⟨⟨2, 3⟩, MemoryRegionType.Usable⟩] _ (by decide)

theorem sort_idempotent (m : MemoryMap) : m.sort.sort = m.sort := by
  have hins : (m.entries.insertionSort RLE).insertionSort RLE =
      m.entries.insertionSort RLE :=
    List.Sorted.insertionSort_eq (List.sorted_insertionSort RLE m.entries)
  simp only [MemoryMap.sort]
  cases hf : (m.entries.insertionSort RLE).findIdx? (fun r => r.range.is_empty) with
  | some i => simp only [hins, hf]
  | none => simp only [hins, hf]

/-- C5 counterexample: a write through the public `DerefMut` slice view is an
operation other than `add_region` that changes the map's state: on a map
holding the single region `Usable[frame 0, frame 1)`, assigning
`Kernel[frame 4, frame 9)` to slice index 0 succeeds and produces a map that
differs from the original, with a different visible sequence. -/
theorem derefMut_write_mutates :
    MemoryMap.derefMutWrite
        ⟨⟨⟨0, 1⟩, MemoryRegionType.Usable⟩ :: List.replicate 63 MemoryRegion.empty, 1⟩ 0
        ⟨⟨4, 9⟩, MemoryRegionType.Kernel⟩ =
      some ⟨⟨⟨4, 9⟩, MemoryRegionType.Kernel⟩ :: List.replicate 63 MemoryRegion.empty, 1⟩ ∧
    (⟨⟨⟨4, 9⟩, MemoryRegionType.Kernel⟩ :: List.replicate 63 MemoryRegion.empty, 1⟩ :
        MemoryMap) ≠
      ⟨⟨⟨0, 1⟩, MemoryRegionType.Usable⟩ :: List.replicate 63 MemoryRegion.empty, 1⟩ ∧
    MemoryMap.toList
        ⟨⟨⟨4, 9⟩, MemoryRegionType.Kernel⟩ :: List.replicate 63 MemoryRegion.empty, 1⟩ ≠
      MemoryMap.toList
        ⟨⟨⟨0, 1⟩, MemoryRegionType.Usable⟩ :: List.replicate 63 MemoryRegion.empty, 1⟩ := by
  decide

/-- C5 amended: besides `add_region`, the public API also exposes `sort` and
the mutable `DerefMut` slice, and a `DerefMut` write can change the map (see
the counterexample); `sort`, however, leaves the map produced by any
successful `add_region` unchanged (it is idempotent), and read access
through `Deref` is the occupied prefix only. -/
theorem sort_after_add_region (m : MemoryMap) (r : MemoryRegion) (m' : MemoryMap)
    (h : m.add_region r = some m') : m'.sort = m' := by
  simp only [MemoryMap.add_region] at h
  split at h
  · exact (Option.some.inj h) ▸ sort_idempotent _
  · exact absurd h (by simp)

/-- Witness for the C5 amended theorem after one `add_region` on a fresh
map. -/
theorem sort_after_add_region_witness :
    MemoryMap.sort
        ⟨⟨⟨2, 3⟩, MemoryRegionType.Usable⟩ :: List.replicate 63 MemoryRegion.empty, 1⟩ =
      ⟨⟨⟨2, 3⟩, MemoryRegionType.Usable⟩ :: List.replicate 63 MemoryRegion.empty, 1⟩ :=
  sort_after_add_region MemoryMap.new ⟨⟨2, 3⟩, MemoryRegionType.Usable⟩ _ (by decide)

/-- C4 counterexample: the conversion does not succeed for every in-range
type code: the descriptor `{start_addr = 0, len = 0, region_type = 1}` has
code 1, yet the conversion fails, because `FrameRange::new(0, 0 + 0)` hits
the fatal `end_addr - 1` underflow. -/
theorem fromE820_degenerate_failure :
    MemoryRegion.fromE820 ⟨0, 0, 1, 0⟩ = none ∧ 1 ≤ (1 : Nat) ∧ (1 : Nat) ≤ 5 := by
  decide

/-- C4 amended: for every descriptor with `start_addr + len ≥ 1`, the
conversion succeeds if and only if the type code is in `1..=5`; codes 1–5
map to `Usable`, `Reserved`, `AcpiReclaimable`, `AcpiNvs`, `BadMemory`
respectively with range `FrameRange::new(start_addr, start_addr + len)`, and
code 0 (like every code outside `1..=5`, by the equivalence) fails
fatally. -/
theorem fromE820_mapping (s l a c : Nat) (h : 1 ≤ s + l) :
    ((MemoryRegion.fromE820 ⟨s, l, c, a⟩).isSome = true ↔ 1 ≤ c ∧ c ≤ 5) ∧
    MemoryRegion.fromE820 ⟨s, l, 1, a⟩ =
      (FrameRange.new s (s + l)).map (fun fr => ⟨fr, MemoryRegionType.Usable⟩) ∧
    MemoryRegion.fromE820 ⟨s, l, 2, a⟩ =
      (FrameRange.new s (s + l)).map (fun fr => ⟨fr, MemoryRegionType.Reserved⟩) ∧
    MemoryRegion.fromE820 ⟨s, l, 3, a⟩ =
      (FrameRange.new s (s + l)).map (fun fr => ⟨fr, MemoryRegionType.AcpiReclaimable⟩) ∧
    MemoryRegion.fromE820 ⟨s, l, 4, a⟩ =
      (FrameRange.new s (s + l)).map (fun fr => ⟨fr, MemoryRegionType.AcpiNvs⟩) ∧
    MemoryRegion.fromE820 ⟨s, l, 5, a⟩ =
      (FrameRange.new s (s + l)).map (fun fr => ⟨fr, MemoryRegionType.BadMemory⟩) ∧
    MemoryRegion.fromE820 ⟨s, l, 0, a⟩ = none := by
  have hs0 : ¬ s + l = 0 := by omega
  have hnew : FrameRange.new s (s + l) =
      some ⟨s / PAGE_SIZE, (s + l - 1) / PAGE_SIZE + 1⟩ := by
    simp [FrameRange.new, hs0]
  refine ⟨?_, ?_, ?_, ?_, ?_, ?_, ?_⟩
  · match c with
    | 0 => simp [MemoryRegion.fromE820]
    | 1 => simp [MemoryRegion.fromE820, hnew]
    | 2 => simp [MemoryRegion.fromE820, hnew]
    | 3 => simp [MemoryRegion.fromE820, hnew]
    | 4 => simp [MemoryRegion.fromE820, hnew]
    | 5 => simp [MemoryRegion.fromE820, hnew]
    | (n + 6) =>
      simp only [MemoryRegion.fromE820]
      constructor
      · intro hsome
        exact absurd hsome (by simp)
      · intro hc
        omega
  · simp [MemoryRegion.fromE820, hnew]
  · simp [MemoryRegion.fromE820, hnew]
  · simp [MemoryRegion.fromE820, hnew]
  · simp [MemoryRegion.fromE820, hnew]
  · simp [MemoryRegion.fromE820, hnew]
  · simp [MemoryRegion.fromE820]

/-- Witness for the C4 amended theorem at `start_addr = 0x1000`,
`len = 0x2000`, attributes 7, code 1. -/
theorem fromE820_mapping_witness :
    ((MemoryRegion.fromE820 ⟨0x1000, 0x2000, 1, 7⟩).isSome = true ↔
      1 ≤ (1 : Nat) ∧ (1 : Nat) ≤ 5) ∧
    MemoryRegion.fromE820 ⟨0x1000, 0x2000, 1, 7⟩ =
      (FrameRange.new 0x1000 (0x1000 + 0x2000)).map
        (fun fr => ⟨fr, MemoryRegionType.Usable⟩) ∧
    MemoryRegion.fromE820 ⟨0x1000, 0x2000, 2, 7⟩ =
      (FrameRange.new 0x1000 (0x1000 + 0x2000)).map
        (fun fr => ⟨fr, MemoryRegionType.Reserved⟩) ∧
    MemoryRegion.fromE820 ⟨0x1000, 0x2000, 3, 7⟩ =
      (FrameRange.new 0x1000 (0x1000 + 0x2000)).map
        (fun fr => ⟨fr, MemoryRegionType.AcpiReclaimable⟩) ∧
    MemoryRegion.fromE820 ⟨0x1000, 0x2000, 4, 7⟩ =
      (FrameRange.new 0x1000 (0x1000 + 0x2000)).map
        (fun fr => ⟨fr, MemoryRegionType.AcpiNvs⟩) ∧
    MemoryRegion.fromE820 ⟨0x1000, 0x2000, 5, 7⟩ =
      (FrameRange.new 0x1000 (0x1000 + 0x2000)).map
        (fun fr => ⟨fr, MemoryRegionType.BadMemory⟩) ∧
    MemoryRegion.fromE820 ⟨0x1000, 0x2000, 0, 7⟩ = none :=
  fromE820_mapping 0x1000 0x2000 7 1 (by decide)

theorem pairwise_drop_empty {es : List MemoryRegion} {i : Nat}
    (hp : es.Pairwise RLE) (hi : i < es.length)
    (hempty : es[i].range.is_empty = true) :
    ∀ x ∈ es.drop i, x.range.is_empty = true := by
  have hd : es.drop i = es[i] :: es.drop (i + 1) := List.drop_eq_getElem_cons hi
  have hpd : (es.drop i).Pairwise RLE :=
    List.Pairwise.sublist (List.drop_sublist _ _) hp
  rw [hd] at hpd
  intro x hx
  rw [hd] at hx
  rcases List.mem_cons.mp hx with rfl | hx'
  · exact hempty
  · have hrel := (List.pairwise_cons.mp hpd).1 x hx'
    rcases (RLE_iff _ _).mp hrel with hxe | ⟨hne, _⟩
    · exact hxe
    · rw [hempty] at hne
      cases hne

theorem new_wf : MapWF MemoryMap.new :=
  ⟨[], List.replicate 64 MemoryRegion.empty, by decide, by decide, by decide,
    by decide, by decide, by decide⟩

theorem add_region_wf (m : MemoryMap) (r : MemoryRegion) (m' : MemoryMap)
    (hwf : MapWF m) (h : m.add_region r = some m') : MapWF m' := by
  obtain ⟨A, B, hAB, hlen, hA, hB, hsort, hnext⟩ := hwf
  have hmax : MAX_MEMORY_MAP_SIZE = 64 := rfl
  simp only [MemoryMap.add_region] at h
  split at h
  case isFalse => exact absurd h (by simp)
  case isTrue hcap =>
  obtain rfl := Option.some.inj h
  rw [hmax] at hcap
  have hlenAB : A.length + B.length = 64 := by
    rw [hAB, List.length_append] at hlen
    rw [← hmax]
    exact hlen
  have hBne : B ≠ [] := by
    intro hBnil
    rw [hBnil, List.length_nil] at hlenAB
    omega
  obtain ⟨b, B', rfl⟩ := List.exists_cons_of_ne_nil hBne
  have hset : m.entries.set m.next_entry_index r = A ++ r :: B' := by
    rw [hAB, hnext, List.set_append_right _ _ (Nat.le_refl _)]
    simp
  have hsorted : ((m.entries.set m.next_entry_index r).insertionSort RLE).Pairwise RLE :=
    List.sorted_insertionSort RLE _
  have hperm : List.Perm ((m.entries.set m.next_entry_index r).insertionSort RLE)
      (m.entries.set m.next_entry_index r) :=
    List.perm_insertionSort RLE _
  have heslen : ((m.entries.set m.next_entry_index r).insertionSort RLE).length = 64 := by
    rw [List.length_insertionSort, List.length_set, hlen, hmax]
  simp only [MemoryMap.sort]
  cases hfind : ((m.entries.set m.next_entry_index r).insertionSort RLE).findIdx?
      (fun x => x.range.is_empty) with
  | some i =>
    obtain ⟨hilen, hip, _⟩ := List.findIdx?_eq_some_iff_getElem.mp hfind
    refine ⟨((m.entries.set m.next_entry_index r).insertionSort RLE).take i,
      ((m.entries.set m.next_entry_index r).insertionSort RLE).drop i,
      (List.take_append_drop _ _).symm, heslen, mem_take_nonempty hfind, ?_, hsorted, ?_⟩
    · exact pairwise_drop_empty hsorted hilen (by simpa using hip)
    · simp only [List.length_take]
      omega
  | none =>
    have hall : ∀ x ∈ (m.entries.set m.next_entry_index r).insertionSort RLE,
        x.range.is_empty = false := by
      intro x hx
      simpa using List.findIdx?_eq_none_iff.mp hfind x hx
    have hBnil : B' = [] := by
      cases hB' : B' with
      | nil => rfl
      | cons c C =>
        exfalso
        have hcmem : c ∈ m.entries.set m.next_entry_index r := by
          rw [hset, hB']
          simp
        have hcne := hall c (hperm.mem_iff.mpr hcmem)
        have hce := hB c (by rw [hB']; simp)
        rw [hce] at hcne
        cases hcne
    have hA63 : A.length = 63 := by
      rw [hBnil] at hlenAB
      simp at hlenAB
      omega
    refine ⟨(m.entries.set m.next_entry_index r).insertionSort RLE, [],
      (List.append_nil _).symm, heslen, hall, by simp, hsorted, ?_⟩
    rw [heslen, hnext, hA63]

theorem addRegions_wf_from (rs : List MemoryRegion) (m0 m' : MemoryMap)
    (hwf : MapWF m0) (h : m0.addRegions rs = some m') : MapWF m' := by
  induction rs generalizing m0 with
  | nil =>
    simp only [MemoryMap.addRegions] at h
    exact (Option.some.inj h) ▸ hwf
  | cons r rs ih =>
    simp only [MemoryMap.addRegions] at h
    cases hm : m0.add_region r with
    | none =>
      rw [hm] at h
      cases h
    | some m1 =>
      rw [hm] at h
      exact ih m1 (add_region_wf m0 r m1 hwf hm) h

theorem addRegions_wf (rs : List MemoryRegion) (m' : MemoryMap)
    (h : MemoryMap.new.addRegions rs = some m') : MapWF m' :=
  addRegions_wf_from rs MemoryMap.new m' new_wf h

theorem add_empty_region_invisible (m : MemoryMap) (r : MemoryRegion)
    (hwf : MapWF m) (hcap : m.next_entry_index < MAX_MEMORY_MAP_SIZE)
    (hr : r.range.is_empty = true) :
    (m.add_region r).map (fun m2 => (m2.toList, m2.next_entry_index)) =
      some (m.toList, m.next_entry_index) := by
  obtain ⟨A, B, hAB, hlen, hA, hB, hsort, hnext⟩ := hwf
  have hmax : MAX_MEMORY_MAP_SIZE = 64 := rfl
  rw [hmax] at hcap
  have hlenAB : A.length + B.length = 64 := by
    rw [hAB, List.length_append] at hlen
    rw [← hmax]
    exact hlen
  have hBne : B ≠ [] := by
    intro hBnil
    rw [hBnil, List.length_nil] at hlenAB
    omega
  obtain ⟨b, B', rfl⟩ := List.exists_cons_of_ne_nil hBne
  have hset : m.entries.set m.next_entry_index r = A ++ r :: B' := by
    rw [hAB, hnext, List.set_append_right _ _ (Nat.le_refl _)]
    simp
  have hsortAB : (A ++ b :: B').Pairwise RLE := hAB ▸ hsort
  have hsort' : (A ++ r :: B').Pairwise RLE := by
    rw [List.pairwise_append] at hsortAB ⊢
    refine ⟨hsortAB.1, ?_, ?_⟩
    · rw [List.pairwise_cons]
      refine ⟨fun y hy => RLE_of_empty_right _ _ (hB y (List.mem_cons_of_mem b hy)), ?_⟩
      exact (List.pairwise_cons.mp hsortAB.2.1).2
    · intro a ha y hy
      rcases List.mem_cons.mp hy with rfl | hy'
      · exact RLE_of_empty_right _ _ hr
      · exact RLE_of_empty_right _ _ (hB y (List.mem_cons_of_mem b hy'))
  have hins : (A ++ r :: B').insertionSort RLE = A ++ r :: B' :=
    List.Sorted.insertionSort_eq hsort'
  have hfind : (A ++ r :: B').findIdx? (fun x => x.range.is_empty) = some A.length := by
    rw [List.findIdx?_append]
    have hAnone : A.findIdx? (fun x => x.range.is_empty) = none :=
      List.findIdx?_eq_none_iff.mpr (fun x hx => by simpa using hA x hx)
    rw [hAnone]
    simp [hr]
  have htake : (A ++ r :: B').take A.length = A := List.take_left' rfl
  have htake' : m.toList = A := by
    rw [MemoryMap.toList, hAB, hnext]
    exact List.take_left' rfl
  simp only [MemoryMap.add_region, hmax, if_pos hcap, MemoryMap.sort, hset, hins, hfind,
    Option.map_some']
  rw [MemoryMap.toList]
  simp only [htake, htake', hnext]

/-- C10: on every map the discovery phase can produce (any sequence of
successful `add_region` calls on a fresh map) that is below capacity,
`add_region` with a region whose range is empty leaves the observable state
unchanged: the region is written into the first free slot, the sort places
it after all non-empty entries (it compares greater than every non-empty
region), and the `next_entry_index` rescan finds the first empty entry at
its old position, so the visible sequence and the counter are exactly what
they were — the region is silently excluded rather than stored visibly or
rejected. -/
theorem add_empty_region_invisible_reachable (rs : List MemoryRegion)
    (m : MemoryMap) (r : MemoryRegion)
    (hreach : MemoryMap.new.addRegions rs = some m)
    (hcap : m.next_entry_index < MAX_MEMORY_MAP_SIZE)
    (hr : r.range.is_empty = true) :
    (m.add_region r).map (fun m2 => (m2.toList, m2.next_entry_index)) =
      some (m.toList, m.next_entry_index) :=
  add_empty_region_invisible m r (addRegions_wf rs m hreach) hcap hr

/-- Witness for C10: after inserting `Reserved[frame 0, frame 1)` into a
fresh map, adding the empty-range region `⟨⟨5, 5⟩, Usable⟩` leaves the
visible prefix and counter unchanged. -/
theorem add_empty_region_invisible_reachable_witness :
    ((MemoryMap.add_region
          ⟨⟨⟨0, 1⟩, MemoryRegionType.Reserved⟩ :: List.replicate 63 MemoryRegion.empty, 1⟩
          ⟨⟨5, 5⟩, MemoryRegionType.Usable⟩).map
        (fun m2 => (m2.toList, m2.next_entry_index))) =
      some
        (MemoryMap.toList
          ⟨⟨⟨0, 1⟩, MemoryRegionType.Reserved⟩ :: List.replicate 63 MemoryRegion.empty, 1⟩,
        1) :=
  add_empty_region_invisible_reachable [⟨⟨0, 1⟩, MemoryRegionType.Reserved⟩]
    ⟨⟨⟨0, 1⟩, MemoryRegionType.Reserved⟩ :: List.replicate 63 MemoryRegion.empty, 1⟩
    ⟨⟨5, 5⟩, MemoryRegionType.Usable⟩
    (by decide) (by decide) (by decide)

end MemMap
